import Mathlib

/-!
# Verification of `shovel/config/config.go`

A shallow embedding of the configuration reconciliation and schema
derivation core of the shovel repository (`shovel/config/config.go`),
together with theorems settling the specification claims about it.

Conventions of the embedding:
* Go slices become `List`, Go structs become structures with the same
  field names (lower-cased).
* Go `map` values become association lists (`List (κ × α)`): `aset`
  models `m[k] = v` (replace-or-append) and `alookup` models `m[k]`.
  Go map iteration order is unspecified; the embedding fixes insertion
  order, which is one admissible schedule.
* Fallible Go functions returning `error` become `Option String`
  (`none` = nil error) or `Except String _`.
* External collaborators (the `wpg` table model's `DDL`/`Migrate`
  methods and the `wstrings.Safe` policy) are abstracted as function
  parameters; the narrow projection of `dig.Event` used by this core is
  modelled from the spec.
-/

namespace Shovel

/-- `wpg.Column`: a column name plus SQL type string. -/
structure Column where
  name : String
  type : String
deriving DecidableEq, Repr

/-- `wpg.Table`: table name, ordered columns, unique-constraint groups. -/
structure Table where
  name : String
  columns : List Column
  unique : List (List String)
deriving DecidableEq, Repr

/-- Modelled from the spec: the narrow projection of a `dig.Input` that
this core consumes — a named event input, optionally bound to a column
(`column` nonempty means "selected"), with an `indexed` flag. The `dig`
package is outside this repository's `src/`. -/
structure Input where
  name : String
  column : String
  indexed : Bool
deriving DecidableEq, Repr

/-- Modelled from the spec: `dig.Event` as an ordered list of inputs. -/
structure Event where
  inputs : List Input
deriving DecidableEq, Repr

/-- Modelled from the spec: `dig.Event.Selected` — the derived subset of
inputs bound to a column (nonempty `column`). -/
def Event.selected (e : Event) : List Input :=
  e.inputs.filter (fun inp => inp.column.length > 0)

/-- `dig.BlockData`: a block-level field binding `name → column`. -/
structure BlockData where
  name : String
  column : String
deriving DecidableEq, Repr

/-- `config.Source` (URL is an env-resolved string). -/
structure Source where
  name : String
  chainId : Nat
  url : String
  start : Nat
  stop : Nat
  concurrency : Int
  batchSize : Int
deriving DecidableEq, Repr

/-- `config.Compiled`; the `config` JSON blob is opaque. -/
structure Compiled where
  name : String
  config : String
deriving DecidableEq, Repr

/-- `config.Integration`. -/
structure Integration where
  name : String
  enabled : Bool
  sources : List Source
  table : Table
  compiled : Compiled
  block : List BlockData
  event : Event
deriving DecidableEq, Repr

/-- `config.Dashboard`. -/
structure Dashboard where
  enableLoopbackAuthn : Bool
  disableAuthn : Bool
  rootPassword : String
deriving DecidableEq, Repr

/-- `config.Root`. -/
structure Root where
  dashboard : Dashboard
  pgUrl : String
  sources : List Source
  integrations : List Integration
deriving DecidableEq, Repr

/-! ## Association-list model of Go maps -/

/-- Go map read `m[k]`: first binding of `k`, if any. -/
def alookup {κ α : Type} [DecidableEq κ] : List (κ × α) → κ → Option α
  | [], _ => none
  | p :: ps, k => if p.1 = k then some p.2 else alookup ps k

/-- Go map write `m[k] = v`: replace the binding of `k`, else append.
(Go maps have at most one binding per key, so replacing the first
binding is the map-write semantics.) -/
def aset {κ α : Type} [DecidableEq κ] : List (κ × α) → κ → α → List (κ × α)
  | [], k, v => [(k, v)]
  | p :: ps, k, v => if p.1 = k then (k, v) :: ps else p :: aset ps k v

theorem alookup_aset {κ α : Type} [DecidableEq κ]
    (m : List (κ × α)) (k k' : κ) (v : α) :
    alookup (aset m k v) k' = if k' = k then some v else alookup m k' := by
  induction m with
  | nil =>
    by_cases h : k' = k
    · simp [aset, alookup, h]
    · have h1 : ¬ k = k' := fun hc => h hc.symm
      simp [aset, alookup, h, h1]
  | cons p ps ih =>
    by_cases hp : p.1 = k
    · by_cases h : k' = k
      · subst h; simp [aset, alookup, hp]
      · have h1 : ¬ k = k' := fun hc => h hc.symm
        have hpk' : ¬ p.1 = k' := by rw [hp]; exact h1
        simp [aset, alookup, hp, h, h1, hpk']
    · by_cases h : k' = k
      · subst h; simp [aset, alookup, hp, ih]
      · by_cases hpk : p.1 = k'
        · simp [aset, alookup, hp, hpk, h]
        · simp [aset, alookup, hp, hpk, ih, h]

/-! ## Table union (`config.union`) -/

/-- The loop body of `config.union`: fold `b.Columns` into the
accumulated column list, appending each column whose name is not
already present. -/
def unionCols (acc : List Column) (bs : List Column) : List Column :=
  bs.foldl
    (fun acc c =>
      if acc.any (fun ac => ac.name = c.name) then acc
      else acc ++ [⟨c.name, c.type⟩])
    acc

/-- `config.union`: merge `b`'s columns into `a` by name. -/
def union (a b : Table) : Table :=
  { a with columns := unionCols a.columns b.columns }

/-! ## `config.AddUniqueIndex` -/

/-- The fixed candidate list scanned by `config.AddUniqueIndex`. -/
def possibleUniqueCols : List String :=
  ["ig_name", "src_name", "block_num", "tx_idx", "log_idx", "abi_idx"]

/-- `config.AddUniqueIndex`: set default unique columns unless already
set by the user. -/
def AddUniqueIndex (t : Table) : Table :=
  if t.unique.length > 0 then t
  else
    let uidx := possibleUniqueCols.filter
      (fun n => t.columns.any (fun c => c.name = n))
    if uidx.length > 0 then { t with unique := t.unique ++ [uidx] }
    else t

/-! ## `config.CheckUserInput` -/

/-- One step of the `check` closure in `config.CheckUserInput`: if an
error is already recorded, do nothing; otherwise run the safety policy
on `val` and record `"<val>" <err>` on failure. (`fmt.Errorf("%q %w")`
is modelled as quoting plus a space; the field-name argument of the Go
closure is unused by the Go code, hence absent here.) -/
def checkOne (safe : String → Option String) (acc : Option String)
    (val : String) : Option String :=
  match acc with
  | some e => some e
  | none =>
    match safe val with
    | some e => some ("\"" ++ val ++ "\" " ++ e)
    | none => none

/-- The values checked for one Integration, in source order: name,
table name, then each column's name and type. -/
def igStrings (ig : Integration) : List String :=
  [ig.name, ig.table.name] ++
    ig.table.columns.flatMap (fun c => [c.name, c.type])

/-- `config.CheckUserInput`, abstracted over the `wstrings.Safe`
policy: checks every integration's strings, then every source name,
keeping the first failure. -/
def CheckUserInput (safe : String → Option String) (conf : Root) :
    Option String :=
  ((conf.integrations.flatMap igStrings) ++ conf.sources.map Source.name).foldl
    (checkOne safe) none

/-! ## `config.ValidateColRefs` -/

/-- First element of `l` already seen (in `seen` or earlier in `l`),
modelling the incremental duplicate detection of `ValidateColRefs`. -/
def findDup (seen : List String) : List String → Option String
  | [] => none
  | x :: xs => if x ∈ seen then some x else findDup (x :: seen) xs

/-- First selected input whose `column` matches no table column. -/
def firstUnmatchedInput (ig : Integration) : Option Input :=
  ig.event.selected.find?
    (fun inp => ! ig.table.columns.any (fun c => c.name = inp.column))

/-- First block field whose `column` is empty or matches no column. -/
def firstUnmatchedBlock (ig : Integration) : Option BlockData :=
  ig.block.find?
    (fun bd => bd.column.length = 0 ||
      ! ig.table.columns.any (fun c => c.name = bd.column))

/-- `config.ValidateColRefs`: duplicate checks, then selected-input
coverage, then block-field coverage, first failure wins. -/
def ValidateColRefs (ig : Integration) : Option String :=
  match findDup [] (ig.table.columns.map Column.name) with
  | some n => some ("duplicate column: " ++ n)
  | none =>
  match findDup [] (ig.event.inputs.map Input.name) with
  | some n => some ("duplicate input: " ++ n)
  | none =>
  match findDup [] (ig.block.map BlockData.name) with
  | some n => some ("duplicate block data field: " ++ n)
  | none =>
  match firstUnmatchedInput ig with
  | some inp => some ("missing column for " ++ inp.name)
  | none =>
  match firstUnmatchedBlock ig with
  | some bd => some ("missing column for block." ++ bd.name)
  | none => none

/-! ## `config.Integration.AddRequiredFields` -/

/-- The `hasBD` closure: is a block-data binding named `n` present? -/
def hasBD (ig : Integration) (n : String) : Bool :=
  ig.block.any (fun bd => bd.name = n)

/-- The `hasCol` closure: is a column named `n` present? -/
def hasCol (ig : Integration) (n : String) : Bool :=
  ig.table.columns.any (fun c => c.name = n)

/-- First half of the `add` closure of `AddRequiredFields`: append the
block-data binding `n → n` unless already present. -/
def addBD (ig : Integration) (n : String) : Integration :=
  if hasBD ig n then ig
  else { ig with block := ig.block ++ [⟨n, n⟩] }

/-- Second half of the `add` closure: append column `(n, t)` unless a
column named `n` is already present. -/
def addCol (ig : Integration) (n t : String) : Integration :=
  if hasCol ig n then ig
  else { ig with table :=
    { ig.table with columns := ig.table.columns ++ [⟨n, t⟩] } }

/-- The `add` closure of `AddRequiredFields`: block-data binding then
column, each inserted only if missing from the current state. -/
def addField (ig : Integration) (n t : String) : Integration :=
  addCol (addBD ig n) n t

/-- The loop body of the `abi_idx` loop of `AddRequiredFields`. -/
def abiStep (acc : Integration) (inp : Input) : Integration :=
  if inp.indexed then acc else addField acc "abi_idx" "int2"

/-- `config.Integration.AddRequiredFields` (functional form of the
in-place mutation). -/
def AddRequiredFields (ig : Integration) : Integration :=
  let ig1 := addField ig "ig_name" "text"
  let ig2 := addField ig1 "src_name" "text"
  let ig3 := addField ig2 "block_num" "numeric"
  let ig4 := addField ig3 "tx_idx" "int"
  let ig5 :=
    if ig4.event.selected.length > 0 then addField ig4 "log_idx" "int"
    else ig4
  ig5.event.selected.foldl abiStep ig5

/-! ## `config.ValidateFix` -/

/-- The per-integration step of `ValidateFix`: derive required fields,
add the default unique index. -/
def fixIntegration (ig : Integration) : Integration :=
  let ig1 := AddRequiredFields ig
  { ig1 with table := AddUniqueIndex ig1.table }

/-- One step of the `ValidateFix` loop: the current (already fixed)
integration either fails reference validation — which aborts the loop —
or is prepended to the outcome of the remaining iterations. -/
def validateFixCons (ig1 : Integration)
    (rest : Except String (List Integration)) :
    Except String (List Integration) :=
  match ValidateColRefs ig1 with
  | some e => .error ("checking config for references: " ++ e)
  | none =>
    match rest with
    | .error e => .error e
    | .ok l => .ok (ig1 :: l)

/-- The loop of `ValidateFix` over the integrations: fix each in place,
stop at the first reference-validation failure. -/
def validateFixList : List Integration → Except String (List Integration)
  | [] => .ok []
  | ig :: igs => validateFixCons (fixIntegration ig) (validateFixList igs)

/-- `config.ValidateFix`, abstracted over the `wstrings.Safe` policy:
safety check, then per-integration derivation and validation; on
success returns the mutated Root. -/
def ValidateFix (safe : String → Option String) (conf : Root) :
    Except String Root :=
  match CheckUserInput safe conf with
  | some e => .error ("checking config for dangerous strings: " ++ e)
  | none =>
    match validateFixList conf.integrations with
    | .error e => .error e
    | .ok igs => .ok { conf with integrations := igs }

/-! ## `config.DDL` and `config.Migrate` -/

/-- The grouping loop of `config.DDL`: insert each integration's table
into the `tables` map, unioning with the entry already present under
the same table name. -/
def ddlFold (tables : List (String × Table)) (nt : Table) :
    List (String × Table) :=
  match alookup tables nt.name with
  | some et => aset tables nt.name (union nt et)
  | none => aset tables nt.name nt

/-- The merged tables `config.DDL` generates statements for (map
values, in insertion order — one admissible Go map iteration order). -/
def DDLtables (conf : Root) : List Table :=
  (((conf.integrations.map Integration.table).foldl ddlFold []).map Prod.snd)

/-- `config.DDL`, abstracted over the `wpg.Table.DDL` collaborator `f`:
concatenate the statements of every merged table. -/
def DDL (f : Table → List String) (conf : Root) : List String :=
  (DDLtables conf).foldl (fun res t => res ++ f t) []

/-- `config.Migrate`, abstracted over the `wpg.Table.Migrate`
collaborator: first failing table aborts with a wrapped error naming
the integration. -/
def Migrate (migrate : Table → Option String) :
    List Integration → Option String
  | [] => none
  | ig :: igs =>
    match migrate ig.table with
    | some e => some ("migrating integration: " ++ ig.name ++ ": " ++ e)
    | none => Migrate migrate igs

/-- The sequence of integration tables `config.Migrate` visits (it
stops after the first failing table). -/
def migrateVisits (migrate : Table → Option String) :
    List Integration → List Table
  | [] => []
  | ig :: igs =>
    match migrate ig.table with
    | some _ => [ig.table]
    | none => ig.table :: migrateVisits migrate igs

/-! ## `config.Root.IntegrationsBySource` -/

/-- The `uniq` map of `IntegrationsBySource`: persisted integrations
first, then declared ones, keyed (and overwritten) by name. The
persisted list stands for the decoded rows of `config.Integrations`
(a database query, abstracted as a parameter). -/
def mergedByName (persisted declared : List Integration) :
    List (String × Integration) :=
  declared.foldl (fun m ig => aset m ig.name ig)
    (persisted.foldl (fun m ig => aset m ig.name ig) [])

/-- Go map read `res[s]` on the source-indexed map: missing keys read
as the zero value `[]`. -/
def resLookup (res : List (String × List Integration)) (s : String) :
    List Integration :=
  (alookup res s).getD []

/-- The inner statement of the re-indexing loop:
`res[src.Name] = append(res[src.Name], ig)`. -/
def addUnderSource (ig : Integration)
    (res : List (String × List Integration)) (src : Source) :
    List (String × List Integration) :=
  aset res src.name (resLookup res src.name ++ [ig])

/-- The body of the re-indexing loop: file one unique integration
under each of its source names. -/
def addIntegration (res : List (String × List Integration))
    (p : String × Integration) : List (String × List Integration) :=
  p.2.sources.foldl (addUnderSource p.2) res

/-- The re-indexing loop of `IntegrationsBySource`: append each unique
integration under each of its source names. -/
def bySource (uniq : List (String × Integration)) :
    List (String × List Integration) :=
  uniq.foldl addIntegration []

/-- `config.Root.IntegrationsBySource`, abstracted over the persisted
integrations. -/
def IntegrationsBySource (persisted : List Integration) (conf : Root) :
    List (String × List Integration) :=
  bySource (mergedByName persisted conf.integrations)

/-! ## `config.Root.AllSources` -/

/-- The `uniq` map of `AllSources`: persisted sources first, then
declared ones, keyed (and overwritten) by chain id. -/
def mergedByChain (persisted declared : List Source) :
    List (Nat × Source) :=
  declared.foldl (fun m s => aset m s.chainId s)
    (persisted.foldl (fun m s => aset m s.chainId s) [])

/-- Insertion step of the `slices.SortFunc` call in `AllSources`. -/
def insertByChain (s : Source) : List Source → List Source
  | [] => [s]
  | x :: xs =>
    if s.chainId ≤ x.chainId then s :: x :: xs else x :: insertByChain s xs

/-- The `slices.SortFunc(cmp.Compare of ChainID)` call of `AllSources`
(any comparison sort agrees on lists with pairwise-distinct keys, which
is the case for map values keyed by chain id). -/
def sortByChain : List Source → List Source
  | [] => []
  | x :: xs => insertByChain x (sortByChain xs)

/-- `config.Root.AllSources`, abstracted over the persisted sources:
merge by chain id (declared wins), emit values sorted by chain id. -/
def AllSources (persisted : List Source) (conf : Root) : List Source :=
  sortByChain ((mergedByChain persisted conf.sources).map Prod.snd)

/-! ## Enabled-flag surgery (for the non-interference claim) -/

/-- Replace the `enabled` flag of the `i`-th integration. -/
def setEnabledList : List Integration → Nat → Bool → List Integration
  | [], _, _ => []
  | ig :: igs, 0, b => { ig with enabled := b } :: igs
  | ig :: igs, i + 1, b => ig :: setEnabledList igs i b

/-- Replace the `enabled` flag of the `i`-th integration of a Root. -/
def setEnabledAt (conf : Root) (i : Nat) (b : Bool) : Root :=
  { conf with integrations := setEnabledList conf.integrations i b }

/-- Spec-side definition, following the claim's words for the default
unique index: exactly those of the fixed candidates that are present as
columns, in the fixed priority order. -/
def defaultUniqueGroup (t : Table) : List String :=
  possibleUniqueCols.filter (fun n => n ∈ t.columns.map Column.name)

theorem addUniqueIndex_filter (t : Table) :
    possibleUniqueCols.filter (fun n => t.columns.any (fun c => c.name = n))
      = defaultUniqueGroup t := by
  unfold defaultUniqueGroup
  apply List.filter_congr
  intro n _
  cases hb : (t.columns.any fun c => c.name = n) with
  | true =>
    obtain ⟨c, hc, he⟩ := List.any_eq_true.mp hb
    have hn : n ∈ t.columns.map Column.name :=
      List.mem_map.mpr ⟨c, hc, of_decide_eq_true he⟩
    simp [hn]
  | false =>
    have hn : n ∉ t.columns.map Column.name := by
      intro hmem
      obtain ⟨c, hc, he⟩ := List.mem_map.mp hmem
      have hany : (t.columns.any fun c => c.name = n) = true :=
        List.any_eq_true.mpr ⟨c, hc, decide_eq_true he⟩
      rw [hb] at hany
      exact Bool.false_ne_true hany
    simp [hn]

/-- C3: on a Table with a user-declared unique group, `AddUniqueIndex`
is the identity; on a Table with none, it appends exactly one group —
the candidates of the fixed priority list present as columns, in that
order — and adds nothing (without error) when no candidate is
present. -/
theorem addUniqueIndex_cases (t : Table) :
    (t.unique ≠ [] → AddUniqueIndex t = t)
  ∧ (t.unique = [] → defaultUniqueGroup t = [] → AddUniqueIndex t = t)
  ∧ (t.unique = [] → defaultUniqueGroup t ≠ [] →
      AddUniqueIndex t = { t with unique := [defaultUniqueGroup t] }) := by
  refine ⟨?_, ?_, ?_⟩
  · intro h
    simp [AddUniqueIndex, List.length_pos.mpr h]
  · intro h hg
    simp [AddUniqueIndex, h, addUniqueIndex_filter, hg]
  · intro h hg
    simp [AddUniqueIndex, h, addUniqueIndex_filter, List.length_pos.mpr hg]

def c3TableAuto : Table :=
  { name := "a"
    columns := [⟨"ig_name", "text"⟩, ⟨"src_name", "text"⟩,
                ⟨"block_num", "numeric"⟩, ⟨"tx_idx", "int"⟩]
    unique := [] }

def c3TableUser : Table :=
  { name := "b", columns := [⟨"x", "int"⟩], unique := [["x"]] }

def c3TableNone : Table :=
  { name := "c", columns := [⟨"x", "int"⟩], unique := [] }

/-- Witness for C3: the three branches of `addUniqueIndex_cases` at
concrete tables. -/
theorem addUniqueIndex_cases_witness :
    AddUniqueIndex c3TableAuto
      = { c3TableAuto with
          unique := [["ig_name", "src_name", "block_num", "tx_idx"]] }
  ∧ AddUniqueIndex c3TableUser = c3TableUser
  ∧ AddUniqueIndex c3TableNone = c3TableNone := by
  refine ⟨?_, ?_, ?_⟩
  · have h := (addUniqueIndex_cases c3TableAuto).2.2 rfl (by decide)
    rw [h]; rfl
  · exact (addUniqueIndex_cases c3TableUser).1 (by decide)
  · exact (addUniqueIndex_cases c3TableNone).2.1 rfl (by decide)

/-! ## C6: union commutativity on disjoint column name sets -/

def c6TableA : Table :=
  { name := "a", columns := [⟨"x", "int"⟩, ⟨"x", "text"⟩], unique := [] }

def c6TableB : Table :=
  { name := "b", columns := [⟨"y", "t"⟩], unique := [] }

/-- C6 counterexample: two tables whose column *name sets* are disjoint
(`{x}` vs `{y}`), yet `union A B` and `union B A` do not contain the
same set of columns, because `A` holds two columns named `x` and union
deduplicates by name. -/
theorem union_comm_counterexample :
    (∀ n ∈ c6TableA.columns.map Column.name,
        n ∉ c6TableB.columns.map Column.name)
  ∧ Column.mk "x" "text" ∈ (union c6TableA c6TableB).columns
  ∧ Column.mk "x" "text" ∉ (union c6TableB c6TableA).columns := by
  decide

theorem Column.eta (c : Column) : Column.mk c.name c.type = c := rfl

theorem unionCols_eq_append (bs : List Column) :
    ∀ acc : List Column,
    (bs.map Column.name).Nodup →
    (∀ c ∈ bs, ∀ ac ∈ acc, ac.name ≠ c.name) →
    unionCols acc bs = acc ++ bs := by
  induction bs with
  | nil => intro acc _ _; simp [unionCols]
  | cons c cs ih =>
    intro acc hnd hd
    have hnotany : acc.any (fun ac => ac.name = c.name) = false := by
      apply List.any_eq_false.mpr
      intro ac hac h
      exact hd c (List.mem_cons_self c cs) ac hac (of_decide_eq_true h)
    have hstep : unionCols acc (c :: cs) = unionCols (acc ++ [c]) cs := by
      show List.foldl _
        (if acc.any (fun ac => ac.name = c.name) then acc
         else acc ++ [⟨c.name, c.type⟩]) cs = _
      rw [hnotany]
      rfl
    rw [hstep, ih (acc ++ [c]) (List.nodup_cons.mp (by simpa using hnd)).2]
    · simp
    · intro c' hc' ac hac
      rcases List.mem_append.mp hac with hin | hone
      · exact hd c' (List.mem_cons_of_mem c hc') ac hin
      · have hac2 : ac = c := by simpa using hone
        rw [hac2]
        have hcn : c.name ∉ cs.map Column.name :=
          (List.nodup_cons.mp (by simpa using hnd)).1
        intro he
        exact hcn (he ▸ List.mem_map.mpr ⟨c', hc', rfl⟩)

theorem union_columns_append (a b : Table)
    (hb : (b.columns.map Column.name).Nodup)
    (hd : ∀ n ∈ a.columns.map Column.name,
        n ∉ b.columns.map Column.name) :
    (union a b).columns = a.columns ++ b.columns := by
  show unionCols a.columns b.columns = a.columns ++ b.columns
  apply unionCols_eq_append b.columns a.columns hb
  intro c hc ac hac he
  exact hd ac.name (List.mem_map.mpr ⟨ac, hac, rfl⟩)
    (he ▸ List.mem_map.mpr ⟨c, hc, rfl⟩)

/-- C6 amended: for two Tables each of whose column name lists is
duplicate-free (the Table invariant) and whose column name sets are
disjoint, `union A B` and `union B A` contain the same set of
columns. -/
theorem union_comm_of_disjoint (a b : Table)
    (ha : (a.columns.map Column.name).Nodup)
    (hb : (b.columns.map Column.name).Nodup)
    (hd : ∀ n ∈ a.columns.map Column.name,
        n ∉ b.columns.map Column.name) :
    ∀ c, c ∈ (union a b).columns ↔ c ∈ (union b a).columns := by
  intro c
  have hd' : ∀ n ∈ b.columns.map Column.name,
      n ∉ a.columns.map Column.name :=
    fun n hn ha' => hd n ha' hn
  rw [union_columns_append a b hb hd, union_columns_append b a ha hd',
    List.mem_append, List.mem_append]
  exact Or.comm

def c6TableX : Table :=
  { name := "p", columns := [⟨"x", "int"⟩], unique := [] }

def c6TableY : Table :=
  { name := "q", columns := [⟨"y", "text"⟩], unique := [] }

/-- Witness for the amended C6 at concrete disjoint duplicate-free
tables. -/
theorem union_comm_of_disjoint_witness :
    Column.mk "y" "text" ∈ (union c6TableX c6TableY).columns
  ↔ Column.mk "y" "text" ∈ (union c6TableY c6TableX).columns :=
  union_comm_of_disjoint c6TableX c6TableY (by decide) (by decide)
    (by decide) (Column.mk "y" "text")

/-! ## C8: the safety-check error drops the field label -/

def c8Safe : String → Option String :=
  fun s => if s = "bad" then some "unsafe" else none

def c8Root : Root :=
  { dashboard := ⟨false, false, ""⟩
    pgUrl := ""
    sources := []
    integrations :=
      [{ name := "bad", enabled := true, sources := []
         table := ⟨"t", [], []⟩, compiled := ⟨"", ""⟩
         block := [], event := ⟨[]⟩ }] }

/-- C8: the error produced for an unsafe integration name is exactly
the quoted offending value followed by the policy error — the
field-name argument (`"integration name"`) that the Go code passes to
its `check` closure is ignored, so the error never says which field
was at fault. -/
theorem checkUserInput_error_drops_field :
    CheckUserInput c8Safe c8Root = some "\"bad\" unsafe" := by
  rfl

/-! ## C10: DDL and Migrate ignore the Enabled flags -/

theorem setEnabledList_map_table (l : List Integration) :
    ∀ (i : Nat) (b : Bool),
    (setEnabledList l i b).map Integration.table = l.map Integration.table := by
  induction l with
  | nil => intro i b; cases i <;> rfl
  | cons ig igs ih =>
    intro i b
    cases i with
    | zero => rfl
    | succ j => simp [setEnabledList, ih j b]

theorem migrate_eq_of_setEnabled (migrate : Table → Option String)
    (l : List Integration) :
    ∀ (i : Nat) (b : Bool),
    Migrate migrate (setEnabledList l i b) = Migrate migrate l
  ∧ migrateVisits migrate (setEnabledList l i b)
      = migrateVisits migrate l := by
  induction l with
  | nil => intro i b; cases i <;> exact ⟨rfl, rfl⟩
  | cons ig igs ih =>
    intro i b
    cases i with
    | zero =>
      constructor <;>
        simp only [setEnabledList, Migrate, migrateVisits]
    | succ j =>
      constructor <;>
        simp only [setEnabledList, Migrate, migrateVisits,
          (ih j b).1, (ih j b).2]

/-- C10: the DDL statement list, the sequence of tables Migrate
visits, and Migrate's outcome are unchanged when any integration's
`enabled` flag is replaced — disabled integrations take part in DDL
generation and migration exactly like enabled ones. -/
theorem enabled_noninterference (conf : Root) (i : Nat) (b : Bool)
    (f : Table → List String) (migrate : Table → Option String) :
    DDL f (setEnabledAt conf i b) = DDL f conf
  ∧ migrateVisits migrate (setEnabledAt conf i b).integrations
      = migrateVisits migrate conf.integrations
  ∧ Migrate migrate (setEnabledAt conf i b).integrations
      = Migrate migrate conf.integrations := by
  refine ⟨?_, ?_, ?_⟩
  · show DDL f { conf with integrations := setEnabledList conf.integrations i b }
        = DDL f conf
    unfold DDL DDLtables
    rw [setEnabledList_map_table]
  · exact (migrate_eq_of_setEnabled migrate conf.integrations i b).2
  · exact (migrate_eq_of_setEnabled migrate conf.integrations i b).1

/-! ## C5: DDL merges same-named tables via union -/

def c5Bookkeeping : List Column :=
  [⟨"ig_name", "text"⟩, ⟨"src_name", "text"⟩,
   ⟨"block_num", "numeric"⟩, ⟨"tx_idx", "int"⟩]

def c5IgA : Integration :=
  { name := "A", enabled := true, sources := []
    table := ⟨"prices", ⟨"x", "int"⟩ :: c5Bookkeeping, []⟩
    compiled := ⟨"", ""⟩, block := [], event := ⟨[]⟩ }

def c5IgB : Integration :=
  { name := "B", enabled := true, sources := []
    table := ⟨"prices", ⟨"y", "int"⟩ :: c5Bookkeeping, []⟩
    compiled := ⟨"", ""⟩, block := [], event := ⟨[]⟩ }

def c5Root : Root :=
  { dashboard := ⟨false, false, ""⟩, pgUrl := "", sources := []
    integrations := [c5IgA, c5IgB] }

/-- The single merged "prices" table the C5 scenario produces. -/
def c5Merged : Table :=
  { name := "prices"
    columns := [⟨"y", "int"⟩, ⟨"ig_name", "text"⟩, ⟨"src_name", "text"⟩,
                ⟨"block_num", "numeric"⟩, ⟨"tx_idx", "int"⟩, ⟨"x", "int"⟩]
    unique := [] }

/-- C5: with integrations "A" and "B" both declaring table "prices"
(columns `x` resp. `y` plus bookkeeping), DDL groups them into a single
merged "prices" table containing both `x` and `y`, and the emitted
statements are exactly the Table collaborator's statements for that
merged table. -/
theorem ddl_merges_same_named_tables :
    DDLtables c5Root = [c5Merged]
  ∧ c5Merged.name = "prices"
  ∧ "x" ∈ c5Merged.columns.map Column.name
  ∧ "y" ∈ c5Merged.columns.map Column.name
  ∧ ∀ f : Table → List String, DDL f c5Root = f c5Merged := by
  refine ⟨by rfl, rfl, by decide, by decide, ?_⟩
  intro f
  show (DDLtables c5Root).foldl (fun res t => res ++ f t) [] = f c5Merged
  rw [show DDLtables c5Root = [c5Merged] from rfl]
  simp

/-! ## C2/C9: schema derivation -/

/-- `ig'` extends `ig`: its column and block lists are the originals
with entries appended — nothing removed or overwritten. -/
def ExtendsIg (ig ig' : Integration) : Prop :=
  (∃ e, ig'.table.columns = ig.table.columns ++ e)
  ∧ (∃ e, ig'.block = ig.block ++ e)

theorem extendsIg_refl (ig : Integration) : ExtendsIg ig ig :=
  ⟨⟨[], by simp⟩, ⟨[], by simp⟩⟩

theorem extendsIg_trans {a b c : Integration}
    (h1 : ExtendsIg a b) (h2 : ExtendsIg b c) : ExtendsIg a c := by
  obtain ⟨⟨e1, he1⟩, ⟨f1, hf1⟩⟩ := h1
  obtain ⟨⟨e2, he2⟩, ⟨f2, hf2⟩⟩ := h2
  exact ⟨⟨e1 ++ e2, by rw [he2, he1, List.append_assoc]⟩,
    ⟨f1 ++ f2, by rw [hf2, hf1, List.append_assoc]⟩⟩

theorem addBD_event (ig : Integration) (n : String) :
    (addBD ig n).event = ig.event := by
  unfold addBD; split <;> rfl

theorem addBD_table (ig : Integration) (n : String) :
    (addBD ig n).table = ig.table := by
  unfold addBD; split <;> rfl

theorem addCol_event (ig : Integration) (n t : String) :
    (addCol ig n t).event = ig.event := by
  unfold addCol; split <;> rfl

theorem addCol_block (ig : Integration) (n t : String) :
    (addCol ig n t).block = ig.block := by
  unfold addCol; split <;> rfl

theorem addField_event (ig : Integration) (n t : String) :
    (addField ig n t).event = ig.event := by
  unfold addField; rw [addCol_event, addBD_event]

theorem abiStep_event (acc : Integration) (inp : Input) :
    (abiStep acc inp).event = acc.event := by
  unfold abiStep; split
  · rfl
  · rw [addField_event]

theorem foldl_abiStep_event (l : List Input) (acc : Integration) :
    (l.foldl abiStep acc).event = acc.event := by
  induction l generalizing acc with
  | nil => rfl
  | cons inp l ih => rw [List.foldl_cons, ih, abiStep_event]

theorem addBD_extends (ig : Integration) (n : String) :
    ExtendsIg ig (addBD ig n) := by
  unfold addBD; split
  · exact extendsIg_refl ig
  · exact ⟨⟨[], by simp⟩, ⟨[⟨n, n⟩], rfl⟩⟩

theorem addCol_extends (ig : Integration) (n t : String) :
    ExtendsIg ig (addCol ig n t) := by
  unfold addCol; split
  · exact extendsIg_refl ig
  · exact ⟨⟨[⟨n, t⟩], rfl⟩, ⟨[], by simp⟩⟩

theorem addField_extends (ig : Integration) (n t : String) :
    ExtendsIg ig (addField ig n t) := by
  unfold addField
  have h := addCol_extends (addBD ig n) n t
  refine extendsIg_trans (addBD_extends ig n) h

theorem abiStep_extends (acc : Integration) (inp : Input) :
    ExtendsIg acc (abiStep acc inp) := by
  unfold abiStep; split
  · exact extendsIg_refl acc
  · exact addField_extends acc "abi_idx" "int2"

theorem foldl_abiStep_extends (l : List Input) (acc : Integration) :
    ExtendsIg acc (l.foldl abiStep acc) := by
  induction l generalizing acc with
  | nil => exact extendsIg_refl acc
  | cons inp l ih =>
    exact extendsIg_trans (abiStep_extends acc inp) (ih (abiStep acc inp))

/-- A required field `n` is fully present: both a block-data binding
and a column named `n` exist. -/
def fieldDone (ig : Integration) (n : String) : Prop :=
  hasBD ig n = true ∧ hasCol ig n = true

theorem hasBD_mono {ig ig' : Integration} (hx : ExtendsIg ig ig')
    {n : String} (h : hasBD ig n = true) : hasBD ig' n = true := by
  obtain ⟨_, ⟨e, he⟩⟩ := hx
  unfold hasBD at *
  rw [he, List.any_append, h, Bool.true_or]

theorem hasCol_mono {ig ig' : Integration} (hx : ExtendsIg ig ig')
    {n : String} (h : hasCol ig n = true) : hasCol ig' n = true := by
  obtain ⟨⟨e, he⟩, _⟩ := hx
  unfold hasCol at *
  rw [he, List.any_append, h, Bool.true_or]

theorem fieldDone_mono {ig ig' : Integration} (hx : ExtendsIg ig ig')
    {n : String} (h : fieldDone ig n) : fieldDone ig' n :=
  ⟨hasBD_mono hx h.1, hasCol_mono hx h.2⟩

theorem addBD_hasBD (ig : Integration) (n : String) :
    hasBD (addBD ig n) n = true := by
  unfold addBD
  split
  · assumption
  · unfold hasBD
    simp

theorem addCol_hasCol (ig : Integration) (n t : String) :
    hasCol (addCol ig n t) n = true := by
  unfold addCol
  split
  · assumption
  · unfold hasCol
    simp

theorem addBD_hasCol (ig : Integration) (n : String) (m : String) :
    hasCol (addBD ig n) m = hasCol ig m := by
  unfold hasCol
  rw [addBD_table]

theorem addField_fieldDone (ig : Integration) (n t : String) :
    fieldDone (addField ig n t) n := by
  unfold addField
  refine ⟨?_, addCol_hasCol (addBD ig n) n t⟩
  exact hasBD_mono (addCol_extends (addBD ig n) n t) (addBD_hasBD ig n)

theorem addField_of_fieldDone {ig : Integration} {n : String}
    (h : fieldDone ig n) (t : String) : addField ig n t = ig := by
  unfold addField addBD addCol
  rw [if_pos h.1, if_pos h.2]

/-- All required-field insertions of `AddRequiredFields` are already
satisfied: the four unconditional fields, `log_idx` when an input is
selected, `abi_idx` when a selected input is not indexed. -/
def derivedDone (ig : Integration) : Prop :=
  fieldDone ig "ig_name" ∧ fieldDone ig "src_name"
  ∧ fieldDone ig "block_num" ∧ fieldDone ig "tx_idx"
  ∧ (ig.event.selected.length > 0 → fieldDone ig "log_idx")
  ∧ (∀ inp ∈ ig.event.selected, inp.indexed = false →
      fieldDone ig "abi_idx")

/-- Stage of `AddRequiredFields` after the four unconditional
insertions. -/
def arfStage4 (ig : Integration) : Integration :=
  addField (addField (addField (addField ig "ig_name" "text")
    "src_name" "text") "block_num" "numeric") "tx_idx" "int"

/-- Stage of `AddRequiredFields` after the conditional `log_idx`
insertion. -/
def arfStage5 (ig : Integration) : Integration :=
  if (arfStage4 ig).event.selected.length > 0 then
    addField (arfStage4 ig) "log_idx" "int"
  else arfStage4 ig

theorem addRequiredFields_eq_stages (ig : Integration) :
    AddRequiredFields ig
      = (arfStage5 ig).event.selected.foldl abiStep (arfStage5 ig) := rfl

theorem arfStage4_event (ig : Integration) :
    (arfStage4 ig).event = ig.event := by
  unfold arfStage4
  rw [addField_event, addField_event, addField_event, addField_event]

theorem arfStage5_event (ig : Integration) :
    (arfStage5 ig).event = ig.event := by
  unfold arfStage5
  split
  · rw [addField_event, arfStage4_event]
  · exact arfStage4_event ig

theorem addRequiredFields_event (ig : Integration) :
    (AddRequiredFields ig).event = ig.event := by
  rw [addRequiredFields_eq_stages, foldl_abiStep_event, arfStage5_event]

theorem arfStage4_extends (ig : Integration) :
    ExtendsIg ig (arfStage4 ig) := by
  unfold arfStage4
  exact extendsIg_trans (addField_extends ig "ig_name" "text")
    (extendsIg_trans (addField_extends _ "src_name" "text")
      (extendsIg_trans (addField_extends _ "block_num" "numeric")
        (addField_extends _ "tx_idx" "int")))

theorem arfStage5_extends (ig : Integration) :
    ExtendsIg ig (arfStage5 ig) := by
  unfold arfStage5
  split
  · exact extendsIg_trans (arfStage4_extends ig)
      (addField_extends _ "log_idx" "int")
  · exact arfStage4_extends ig

theorem addRequiredFields_extends (ig : Integration) :
    ExtendsIg ig (AddRequiredFields ig) := by
  rw [addRequiredFields_eq_stages]
  exact extendsIg_trans (arfStage5_extends ig) (foldl_abiStep_extends _ _)

theorem arfStage4_done (ig : Integration) :
    fieldDone (arfStage4 ig) "ig_name" ∧ fieldDone (arfStage4 ig) "src_name"
  ∧ fieldDone (arfStage4 ig) "block_num"
  ∧ fieldDone (arfStage4 ig) "tx_idx" := by
  unfold arfStage4
  refine ⟨?_, ?_, ?_, addField_fieldDone _ "tx_idx" "int"⟩
  · exact fieldDone_mono
      (extendsIg_trans (addField_extends _ "src_name" "text")
        (extendsIg_trans (addField_extends _ "block_num" "numeric")
          (addField_extends _ "tx_idx" "int")))
      (addField_fieldDone ig "ig_name" "text")
  · exact fieldDone_mono
      (extendsIg_trans (addField_extends _ "block_num" "numeric")
        (addField_extends _ "tx_idx" "int"))
      (addField_fieldDone _ "src_name" "text")
  · exact fieldDone_mono (addField_extends _ "tx_idx" "int")
      (addField_fieldDone _ "block_num" "numeric")

theorem foldl_abiStep_done {l : List Input} {inp : Input}
    (hmem : inp ∈ l) (hni : inp.indexed = false) (acc : Integration) :
    fieldDone (l.foldl abiStep acc) "abi_idx" := by
  induction l generalizing acc with
  | nil => cases hmem
  | cons x xs ih =>
    rw [List.foldl_cons]
    rcases List.mem_cons.mp hmem with h | h
    · subst h
      have hstep : abiStep acc inp = addField acc "abi_idx" "int2" := by
        unfold abiStep; rw [hni]; rfl
      rw [hstep]
      exact fieldDone_mono (foldl_abiStep_extends xs _)
        (addField_fieldDone acc "abi_idx" "int2")
    · exact ih h _

theorem foldl_abiStep_id {l : List Input} {ig : Integration}
    (h : ∀ inp ∈ l, abiStep ig inp = ig) : l.foldl abiStep ig = ig := by
  induction l with
  | nil => rfl
  | cons x xs ih =>
    rw [List.foldl_cons, h x (List.mem_cons_self x xs)]
    exact ih (fun inp hm => h inp (List.mem_cons_of_mem x hm))

theorem addRequiredFields_done (ig : Integration) :
    derivedDone (AddRequiredFields ig) := by
  have h4 := arfStage4_done ig
  have hx45 : ExtendsIg (arfStage4 ig) (arfStage5 ig) := by
    unfold arfStage5
    split
    · exact addField_extends _ "log_idx" "int"
    · exact extendsIg_refl _
  have hx5f : ExtendsIg (arfStage5 ig)
      ((arfStage5 ig).event.selected.foldl abiStep (arfStage5 ig)) :=
    foldl_abiStep_extends _ _
  have hx4f := extendsIg_trans hx45 hx5f
  rw [addRequiredFields_eq_stages]
  refine ⟨fieldDone_mono hx4f h4.1, fieldDone_mono hx4f h4.2.1,
    fieldDone_mono hx4f h4.2.2.1, fieldDone_mono hx4f h4.2.2.2, ?_, ?_⟩
  · intro hlen
    rw [foldl_abiStep_event, arfStage5_event] at hlen
    have hlen4 : (arfStage4 ig).event.selected.length > 0 := by
      rw [arfStage4_event]; exact hlen
    have h5 : fieldDone (arfStage5 ig) "log_idx" := by
      unfold arfStage5
      rw [if_pos hlen4]
      exact addField_fieldDone _ "log_idx" "int"
    exact fieldDone_mono hx5f h5
  · intro inp hmem hni
    rw [foldl_abiStep_event] at hmem
    exact foldl_abiStep_done hmem hni _

theorem addRequiredFields_of_done {ig : Integration}
    (h : derivedDone ig) : AddRequiredFields ig = ig := by
  obtain ⟨h1, h2, h3, h4, h5, h6⟩ := h
  have hs4 : arfStage4 ig = ig := by
    unfold arfStage4
    rw [addField_of_fieldDone h1, addField_of_fieldDone h2,
      addField_of_fieldDone h3, addField_of_fieldDone h4]
  have hs5 : arfStage5 ig = ig := by
    unfold arfStage5
    rw [hs4]
    split
    · exact addField_of_fieldDone (h5 (by assumption)) "int"
    · rfl
  rw [addRequiredFields_eq_stages, hs5]
  apply foldl_abiStep_id
  intro inp hmem
  unfold abiStep
  cases hidx : inp.indexed
  · rw [if_neg (by simp)]
    exact addField_of_fieldDone (h6 inp hmem hidx) "int2"
  · rfl

/-- C2: `AddRequiredFields` is idempotent — a second application
changes neither the column list nor the block list — and the first
application only appends: required fields already present under the
exact name are neither added again nor overwritten. -/
theorem addRequiredFields_idempotent (ig : Integration) :
    (AddRequiredFields (AddRequiredFields ig)).table.columns
        = (AddRequiredFields ig).table.columns
  ∧ (AddRequiredFields (AddRequiredFields ig)).block
        = (AddRequiredFields ig).block
  ∧ (∃ e, (AddRequiredFields ig).table.columns = ig.table.columns ++ e)
  ∧ (∃ e, (AddRequiredFields ig).block = ig.block ++ e) := by
  have h := addRequiredFields_of_done (addRequiredFields_done ig)
  have hext := addRequiredFields_extends ig
  exact ⟨by rw [h], by rw [h], hext.1, hext.2⟩

/-! ## C9: the derivation scenario with one selected, non-indexed input -/

theorem addField_block_false {ig : Integration} {n : String}
    (h : hasBD ig n = false) (t : String) :
    (addField ig n t).block = ig.block ++ [⟨n, n⟩] := by
  unfold addField
  rw [addCol_block]
  unfold addBD
  rw [h]
  rfl

theorem mem_name_of_hasCol {ig : Integration} {n : String}
    (h : hasCol ig n = true) : n ∈ ig.table.columns.map Column.name := by
  obtain ⟨c, hc, he⟩ := List.any_eq_true.mp h
  exact List.mem_map.mpr ⟨c, hc, of_decide_eq_true he⟩

/-- C9 amended: for an Integration with exactly one selected,
non-indexed event input and no block fields, after `AddRequiredFields`
the block list is exactly the six bookkeeping bindings `name → name`
for `ig_name, src_name, block_num, tx_idx, log_idx, abi_idx`, and the
table columns contain all six bookkeeping names in addition to the
user's own columns (which are preserved unchanged as an initial
segment). -/
theorem addRequiredFields_scenario (ig : Integration) (inp : Input)
    (hb : ig.block = []) (hsel : ig.event.selected = [inp])
    (hni : inp.indexed = false) :
    (AddRequiredFields ig).block =
      [⟨"ig_name", "ig_name"⟩, ⟨"src_name", "src_name"⟩,
       ⟨"block_num", "block_num"⟩, ⟨"tx_idx", "tx_idx"⟩,
       ⟨"log_idx", "log_idx"⟩, ⟨"abi_idx", "abi_idx"⟩]
  ∧ (∀ n ∈ ["ig_name", "src_name", "block_num", "tx_idx",
        "log_idx", "abi_idx"],
      n ∈ (AddRequiredFields ig).table.columns.map Column.name)
  ∧ (∃ e, (AddRequiredFields ig).table.columns
        = ig.table.columns ++ e) := by
  have h1f : hasBD ig "ig_name" = false := by
    unfold hasBD; rw [hb]; rfl
  have hA1 : (addField ig "ig_name" "text").block
      = [⟨"ig_name", "ig_name"⟩] := by
    rw [addField_block_false h1f, hb]; rfl
  have h2f : hasBD (addField ig "ig_name" "text") "src_name" = false := by
    unfold hasBD; rw [hA1]; decide
  have hA2 : (addField (addField ig "ig_name" "text")
      "src_name" "text").block
      = [⟨"ig_name", "ig_name"⟩, ⟨"src_name", "src_name"⟩] := by
    rw [addField_block_false h2f, hA1]; rfl
  have h3f : hasBD (addField (addField ig "ig_name" "text")
      "src_name" "text") "block_num" = false := by
    unfold hasBD; rw [hA2]; decide
  have hA3 : (addField (addField (addField ig "ig_name" "text")
      "src_name" "text") "block_num" "numeric").block
      = [⟨"ig_name", "ig_name"⟩, ⟨"src_name", "src_name"⟩,
         ⟨"block_num", "block_num"⟩] := by
    rw [addField_block_false h3f, hA2]; rfl
  have h4f : hasBD (addField (addField (addField ig "ig_name" "text")
      "src_name" "text") "block_num" "numeric") "tx_idx" = false := by
    unfold hasBD; rw [hA3]; decide
  have hA4 : (arfStage4 ig).block
      = [⟨"ig_name", "ig_name"⟩, ⟨"src_name", "src_name"⟩,
         ⟨"block_num", "block_num"⟩, ⟨"tx_idx", "tx_idx"⟩] := by
    unfold arfStage4
    rw [addField_block_false h4f, hA3]; rfl
  have hs5 : arfStage5 ig = addField (arfStage4 ig) "log_idx" "int" := by
    unfold arfStage5
    rw [if_pos]
    rw [arfStage4_event, hsel]
    simp
  have h5f : hasBD (arfStage4 ig) "log_idx" = false := by
    unfold hasBD; rw [hA4]; decide
  have hA5 : (arfStage5 ig).block
      = [⟨"ig_name", "ig_name"⟩, ⟨"src_name", "src_name"⟩,
         ⟨"block_num", "block_num"⟩, ⟨"tx_idx", "tx_idx"⟩,
         ⟨"log_idx", "log_idx"⟩] := by
    rw [hs5, addField_block_false h5f, hA4]; rfl
  have hsel5 : (arfStage5 ig).event.selected = [inp] := by
    rw [arfStage5_event, hsel]
  have hstep : abiStep (arfStage5 ig) inp
      = addField (arfStage5 ig) "abi_idx" "int2" := by
    unfold abiStep
    rw [hni]
    simp
  have hfold : AddRequiredFields ig
      = addField (arfStage5 ig) "abi_idx" "int2" := by
    rw [addRequiredFields_eq_stages, hsel5, List.foldl_cons,
      List.foldl_nil, hstep]
  have h6f : hasBD (arfStage5 ig) "abi_idx" = false := by
    unfold hasBD; rw [hA5]; decide
  have hblock : (AddRequiredFields ig).block =
      [⟨"ig_name", "ig_name"⟩, ⟨"src_name", "src_name"⟩,
       ⟨"block_num", "block_num"⟩, ⟨"tx_idx", "tx_idx"⟩,
       ⟨"log_idx", "log_idx"⟩, ⟨"abi_idx", "abi_idx"⟩] := by
    rw [hfold, addField_block_false h6f, hA5]; rfl
  obtain ⟨d1, d2, d3, d4, d5, d6⟩ := addRequiredFields_done ig
  have hlen : (AddRequiredFields ig).event.selected.length > 0 := by
    rw [addRequiredFields_event, hsel]; simp
  have hd5 := d5 hlen
  have hd6 := d6 inp
    (by rw [addRequiredFields_event, hsel]; exact List.mem_singleton.mpr rfl)
    hni
  refine ⟨hblock, ?_, (addRequiredFields_extends ig).1⟩
  intro n hn
  simp only [List.mem_cons, List.not_mem_nil, or_false] at hn
  rcases hn with rfl | rfl | rfl | rfl | rfl | rfl
  · exact mem_name_of_hasCol d1.2
  · exact mem_name_of_hasCol d2.2
  · exact mem_name_of_hasCol d3.2
  · exact mem_name_of_hasCol d4.2
  · exact mem_name_of_hasCol hd5.2
  · exact mem_name_of_hasCol hd6.2

def c9Ig : Integration :=
  { name := "ig", enabled := true, sources := []
    table := ⟨"t", [⟨"amt", "numeric"⟩], []⟩
    compiled := ⟨"c", ""⟩, block := []
    event := ⟨[⟨"amt", "amt", false⟩]⟩ }

/-- C9 counterexample: in the claimed scenario the derived Block list
binds the six bookkeeping names, not five, so it does not consist of
"exactly those five bookkeeping names". -/
theorem addRequiredFields_block_count_counterexample :
    (AddRequiredFields c9Ig).block.map BlockData.name
      = ["ig_name", "src_name", "block_num", "tx_idx",
         "log_idx", "abi_idx"]
  ∧ (AddRequiredFields c9Ig).block.length = 6
  ∧ (AddRequiredFields c9Ig).block.length ≠ 5 := by
  refine ⟨rfl, rfl, by decide⟩

/-- Witness for the amended C9 at a concrete integration. -/
theorem addRequiredFields_scenario_witness :
    (AddRequiredFields c9Ig).block =
      [⟨"ig_name", "ig_name"⟩, ⟨"src_name", "src_name"⟩,
       ⟨"block_num", "block_num"⟩, ⟨"tx_idx", "tx_idx"⟩,
       ⟨"log_idx", "log_idx"⟩, ⟨"abi_idx", "abi_idx"⟩]
  ∧ "log_idx" ∈ (AddRequiredFields c9Ig).table.columns.map Column.name :=
  ⟨(addRequiredFields_scenario c9Ig ⟨"amt", "amt", false⟩ rfl rfl rfl).1,
   (addRequiredFields_scenario c9Ig ⟨"amt", "amt", false⟩ rfl rfl rfl).2.1
     "log_idx" (by decide)⟩

/-! ## C1: coverage invariant after `ValidateFix` -/

theorem findDup_none {l : List String} :
    ∀ seen, findDup seen l = none → l.Nodup ∧ ∀ x ∈ l, x ∉ seen := by
  induction l with
  | nil => intro seen _; simp
  | cons x xs ih =>
    intro seen h
    unfold findDup at h
    by_cases hx : x ∈ seen
    · rw [if_pos hx] at h; cases h
    · rw [if_neg hx] at h
      obtain ⟨hnd, hdisj⟩ := ih (x :: seen) h
      refine ⟨List.nodup_cons.mpr ⟨?_, hnd⟩, ?_⟩
      · intro hmem
        exact hdisj x hmem (List.mem_cons_self x seen)
      · intro y hy
        rcases List.mem_cons.mp hy with rfl | hy'
        · exact hx
        · intro hcontra
          exact hdisj y hy' (List.mem_cons_of_mem x hcontra)

theorem filter_name_length_one {cols : List Column} {n : String}
    (hnd : (cols.map Column.name).Nodup)
    (hex : ∃ c ∈ cols, c.name = n) :
    (cols.filter (fun c => c.name = n)).length = 1 := by
  induction cols with
  | nil => obtain ⟨c, hc, _⟩ := hex; cases hc
  | cons c cs ih =>
    rw [List.map_cons] at hnd
    have hnd' := List.nodup_cons.mp hnd
    by_cases hcn : c.name = n
    · have hnone : cs.filter (fun c => c.name = n) = [] := by
        apply List.filter_eq_nil_iff.mpr
        intro c' hc' hcontra
        have hcn' : c'.name = n := of_decide_eq_true hcontra
        exact hnd'.1 (hcn ▸ hcn' ▸ List.mem_map.mpr ⟨c', hc', rfl⟩)
      rw [List.filter_cons_of_pos (by simpa using hcn), hnone]
      rfl
    · have hex' : ∃ c' ∈ cs, c'.name = n := by
        obtain ⟨c', hc', he⟩ := hex
        rcases List.mem_cons.mp hc' with rfl | hin
        · exact absurd he hcn
        · exact ⟨c', hin, he⟩
      rw [List.filter_cons_of_neg (by simpa using hcn)]
      exact ih hnd'.2 hex'

theorem validateColRefs_none {ig : Integration}
    (h : ValidateColRefs ig = none) :
    (ig.table.columns.map Column.name).Nodup
  ∧ (∀ inp ∈ ig.event.selected,
      ∃ c ∈ ig.table.columns, c.name = inp.column)
  ∧ (∀ bd ∈ ig.block, ∃ c ∈ ig.table.columns, c.name = bd.column) := by
  unfold ValidateColRefs at h
  cases h1 : findDup [] (ig.table.columns.map Column.name) with
  | some n => rw [h1] at h; cases h
  | none =>
  rw [h1] at h
  cases h2 : findDup [] (ig.event.inputs.map Input.name) with
  | some n => rw [h2] at h; cases h
  | none =>
  rw [h2] at h
  cases h3 : findDup [] (ig.block.map BlockData.name) with
  | some n => rw [h3] at h; cases h
  | none =>
  rw [h3] at h
  cases h4 : firstUnmatchedInput ig with
  | some inp => rw [h4] at h; cases h
  | none =>
  rw [h4] at h
  cases h5 : firstUnmatchedBlock ig with
  | some bd => rw [h5] at h; cases h
  | none =>
  refine ⟨(findDup_none [] h1).1, ?_, ?_⟩
  · intro inp hmem
    have := List.find?_eq_none.mp h4 inp hmem
    have hany : (ig.table.columns.any fun c => c.name = inp.column) = true := by
      cases hval : ig.table.columns.any fun c => c.name = inp.column
      · exact absurd (by rw [hval]; rfl) this
      · rfl
    obtain ⟨c, hc, he⟩ := List.any_eq_true.mp hany
    exact ⟨c, hc, of_decide_eq_true he⟩
  · intro bd hmem
    have := List.find?_eq_none.mp h5 bd hmem
    have hany : (ig.table.columns.any fun c => c.name = bd.column) = true := by
      cases hval : ig.table.columns.any fun c => c.name = bd.column
      · exact absurd (by rw [hval]; simp) this
      · rfl
    obtain ⟨c, hc, he⟩ := List.any_eq_true.mp hany
    exact ⟨c, hc, of_decide_eq_true he⟩

theorem validateFixCons_ok {ig1 : Integration}
    {rest : Except String (List Integration)} {igs : List Integration}
    (h : validateFixCons ig1 rest = .ok igs) :
    ValidateColRefs ig1 = none ∧ ∃ l, rest = .ok l ∧ igs = ig1 :: l := by
  unfold validateFixCons at h
  cases hv : ValidateColRefs ig1 with
  | some e => rw [hv] at h; cases h
  | none =>
  rw [hv] at h
  cases hr : rest with
  | error e => rw [hr] at h; cases h
  | ok l =>
  rw [hr] at h
  cases h
  exact ⟨rfl, l, rfl, rfl⟩

theorem validateFixList_ok {l : List Integration} :
    ∀ {igs : List Integration}, validateFixList l = .ok igs →
    ∀ ig ∈ igs, ValidateColRefs ig = none := by
  induction l with
  | nil =>
    intro igs h
    cases h
    intro ig hmem; cases hmem
  | cons x xs ih =>
    intro igs h
    have h' : validateFixCons (fixIntegration x) (validateFixList xs)
        = .ok igs := h
    obtain ⟨hv, lrest, hr, rfl⟩ := validateFixCons_ok h'
    intro ig hmem
    rcases List.mem_cons.mp hmem with rfl | hin
    · exact hv
    · exact ih hr ig hin

/-- C1: whenever `ValidateFix` succeeds, every selected event input and
every block-data field of every resulting Integration names exactly one
column of that Integration's Table — the named column exists, and
column names are unique within the Table. -/
theorem validateFix_coverage (safe : String → Option String)
    (conf conf' : Root) (h : ValidateFix safe conf = .ok conf') :
    ∀ ig ∈ conf'.integrations,
      (∀ inp ∈ ig.event.selected,
        (ig.table.columns.filter (fun c => c.name = inp.column)).length = 1)
    ∧ (∀ bd ∈ ig.block,
        (ig.table.columns.filter (fun c => c.name = bd.column)).length = 1) := by
  unfold ValidateFix at h
  cases h1 : CheckUserInput safe conf with
  | some e => rw [h1] at h; cases h
  | none =>
  rw [h1] at h
  cases h2 : validateFixList conf.integrations with
  | error e => rw [h2] at h; cases h
  | ok igs =>
  rw [h2] at h
  cases h
  intro ig hmem
  have hval := validateFixList_ok h2 ig hmem
  obtain ⟨hnd, hinp, hbd⟩ := validateColRefs_none hval
  exact ⟨fun inp hm => filter_name_length_one hnd (hinp inp hm),
    fun bd hm => filter_name_length_one hnd (hbd bd hm)⟩

def c1Ig : Integration :=
  { name := "ig", enabled := true, sources := []
    table := ⟨"t", [⟨"amt", "numeric"⟩], []⟩
    compiled := ⟨"c", ""⟩, block := []
    event := ⟨[⟨"amt", "amt", false⟩]⟩ }

def c1Root : Root :=
  { dashboard := ⟨false, false, ""⟩, pgUrl := "", sources := []
    integrations := [c1Ig] }

/-- The Root `ValidateFix` produces on `c1Root` with a permissive
safety policy. -/
def c1Fixed : Root :=
  { dashboard := ⟨false, false, ""⟩, pgUrl := "", sources := []
    integrations :=
      [{ name := "ig", enabled := true, sources := []
         table :=
           { name := "t"
             columns := [⟨"amt", "numeric"⟩, ⟨"ig_name", "text"⟩,
               ⟨"src_name", "text"⟩, ⟨"block_num", "numeric"⟩,
               ⟨"tx_idx", "int"⟩, ⟨"log_idx", "int"⟩, ⟨"abi_idx", "int2"⟩]
             unique := [["ig_name", "src_name", "block_num", "tx_idx",
               "log_idx", "abi_idx"]] }
         compiled := ⟨"c", ""⟩
         block := [⟨"ig_name", "ig_name"⟩, ⟨"src_name", "src_name"⟩,
           ⟨"block_num", "block_num"⟩, ⟨"tx_idx", "tx_idx"⟩,
           ⟨"log_idx", "log_idx"⟩, ⟨"abi_idx", "abi_idx"⟩]
         event := ⟨[⟨"amt", "amt", false⟩]⟩ }] }

/-- Witness for C1: a concrete configuration on which `ValidateFix`
succeeds, with the coverage count evaluated at one selected input. -/
theorem validateFix_coverage_witness :
    ((c1Fixed.integrations.head (by decide)).table.columns.filter
      (fun c => c.name = "amt")).length = 1 :=
  ((validateFix_coverage (fun _ => none) c1Root c1Fixed rfl
      (c1Fixed.integrations.head (by decide)) (by decide)).1
    ⟨"amt", "amt", false⟩ (by decide))

/-! ## C4/C7: merge maps keyed by name / chain id -/

theorem alookup_foldl_aset {κ α : Type} [DecidableEq κ] (key : α → κ)
    (l : List α) (m : List (κ × α)) (k : κ) :
    alookup (l.foldl (fun m x => aset m (key x) x) m) k =
      (l.reverse.find? (fun x => key x = k)).or (alookup m k) := by
  induction l generalizing m with
  | nil => rfl
  | cons x xs ih =>
    rw [List.foldl_cons, ih, List.reverse_cons, List.find?_append]
    rw [alookup_aset]
    have hx : [x].find? (fun y => key y = k)
        = if key x = k then some x else none := by
      by_cases h : key x = k
      · rw [if_pos h]
        exact List.find?_cons_of_pos _ (by simpa using h)
      · rw [if_neg h]
        rw [List.find?_cons_of_neg _ (by simpa using h)]
        rfl
    rw [hx]
    by_cases h : key x = k
    · rw [if_pos h, if_pos h.symm]
      cases xs.reverse.find? (fun y => key y = k) <;> rfl
    · rw [if_neg h, if_neg (fun hc => h hc.symm)]
      cases xs.reverse.find? (fun y => key y = k) <;> rfl

/-- Every binding of the map pairs a value with its own key. -/
def keyedBy {κ α : Type} (key : α → κ) (m : List (κ × α)) : Prop :=
  ∀ p ∈ m, p.1 = key p.2

theorem keyedBy_aset {κ α : Type} [DecidableEq κ] {key : α → κ}
    {m : List (κ × α)} (h : keyedBy key m) (v : α) :
    keyedBy key (aset m (key v) v) := by
  induction m with
  | nil =>
    intro p hp
    rcases List.mem_singleton.mp hp with rfl
    rfl
  | cons q qs ih =>
    unfold aset
    split
    · intro p hp
      rcases List.mem_cons.mp hp with rfl | hin
      · rfl
      · exact h p (List.mem_cons_of_mem q hin)
    · intro p hp
      rcases List.mem_cons.mp hp with hpq | hin
      · rw [hpq]
        exact h q (List.mem_cons_self q qs)
      · exact ih (fun r hr => h r (List.mem_cons_of_mem q hr)) p hin

theorem mem_keys_aset {κ α : Type} [DecidableEq κ]
    {m : List (κ × α)} {k k' : κ} {v : α}
    (h : k' ∈ (aset m k v).map Prod.fst) :
    k' = k ∨ k' ∈ m.map Prod.fst := by
  induction m with
  | nil =>
    simp only [aset, List.map_cons, List.map_nil, List.mem_singleton] at h
    exact Or.inl h
  | cons q qs ih =>
    unfold aset at h
    split at h
    · rw [List.map_cons] at h
      rcases List.mem_cons.mp h with rfl | hin
      · exact Or.inl rfl
      · exact Or.inr (List.mem_cons_of_mem _ hin)
    · rw [List.map_cons] at h
      rcases List.mem_cons.mp h with rfl | hin
      · exact Or.inr (List.mem_cons_self _ _)
      · rcases ih hin with hk | hm
        · exact Or.inl hk
        · exact Or.inr (List.mem_cons_of_mem _ hm)

theorem keysNodup_aset {κ α : Type} [DecidableEq κ]
    {m : List (κ × α)} (k : κ) (v : α)
    (h : (m.map Prod.fst).Nodup) : ((aset m k v).map Prod.fst).Nodup := by
  induction m with
  | nil => simp [aset]
  | cons q qs ih =>
    rw [List.map_cons] at h
    have h' := List.nodup_cons.mp h
    unfold aset
    split
    · rename_i hq
      rw [List.map_cons, List.nodup_cons]
      exact ⟨hq ▸ h'.1, h'.2⟩
    · rename_i hq
      rw [List.map_cons, List.nodup_cons]
      refine ⟨?_, ih h'.2⟩
      intro hmem
      rcases mem_keys_aset hmem with rfl | hin
      · exact hq rfl
      · exact h'.1 hin

theorem keyedBy_foldl {κ α : Type} [DecidableEq κ] {key : α → κ}
    (l : List α) (m : List (κ × α)) (h : keyedBy key m) :
    keyedBy key (l.foldl (fun m x => aset m (key x) x) m) := by
  induction l generalizing m with
  | nil => exact h
  | cons x xs ih => exact ih (aset m (key x) x) (keyedBy_aset h x)

theorem keysNodup_foldl {κ α : Type} [DecidableEq κ] {key : α → κ}
    (l : List α) (m : List (κ × α)) (h : (m.map Prod.fst).Nodup) :
    ((l.foldl (fun m x => aset m (key x) x) m).map Prod.fst).Nodup := by
  induction l generalizing m with
  | nil => exact h
  | cons x xs ih => exact ih (aset m (key x) x) (keysNodup_aset _ x h)

theorem mem_of_alookup {κ α : Type} [DecidableEq κ]
    {m : List (κ × α)} {k : κ} {v : α}
    (h : alookup m k = some v) : (k, v) ∈ m := by
  induction m with
  | nil => cases h
  | cons p ps ih =>
    unfold alookup at h
    split at h
    · rename_i hp
      cases h
      have : p = (k, p.2) := Prod.ext hp rfl
      rw [← this]
      exact List.mem_cons_self p ps
    · exact List.mem_cons_of_mem p (ih h)

theorem alookup_of_mem {κ α : Type} [DecidableEq κ]
    {m : List (κ × α)} {k : κ} {v : α}
    (hnd : (m.map Prod.fst).Nodup) (h : (k, v) ∈ m) :
    alookup m k = some v := by
  induction m with
  | nil => cases h
  | cons p ps ih =>
    rw [List.map_cons] at hnd
    have hnd' := List.nodup_cons.mp hnd
    rcases List.mem_cons.mp h with rfl | hin
    · unfold alookup
      rw [if_pos rfl]
    · have hk : k ∈ ps.map Prod.fst :=
        List.mem_map.mpr ⟨(k, v), hin, rfl⟩
      have hp : ¬ p.1 = k := fun hc => hnd'.1 (hc ▸ hk)
      unfold alookup
      rw [if_neg hp]
      exact ih hnd'.2 hin

theorem resLookup_aset (res : List (String × List Integration))
    (k : String) (l : List Integration) (s : String) :
    resLookup (aset res k l) s
      = if s = k then l else resLookup res s := by
  unfold resLookup
  rw [alookup_aset]
  by_cases h : s = k <;> simp [h]

theorem mem_addUnderSource_fold (ig : Integration) (srcs : List Source) :
    ∀ (res : List (String × List Integration)) (s : String)
      (x : Integration),
    (x ∈ resLookup (srcs.foldl (addUnderSource ig) res) s ↔
      x ∈ resLookup res s ∨ (x = ig ∧ ∃ src ∈ srcs, src.name = s)) := by
  induction srcs with
  | nil => intro res s x; simp
  | cons src rest ih =>
    intro res s x
    rw [List.foldl_cons, ih]
    show x ∈ resLookup (aset res src.name (resLookup res src.name ++ [ig])) s
        ∨ _ ↔ _
    rw [resLookup_aset]
    by_cases h : s = src.name
    · subst h
      rw [if_pos rfl]
      constructor
      · rintro (hmem | ⟨rfl, src', hsrc', hname⟩)
        · rcases List.mem_append.mp hmem with hmem' | hig
          · exact Or.inl hmem'
          · have hx : x = ig := by simpa using hig
            exact Or.inr ⟨hx, src, List.mem_cons_self src rest, rfl⟩
        · exact Or.inr ⟨rfl, src', List.mem_cons_of_mem src hsrc', hname⟩
      · rintro (hmem | ⟨rfl, src', hsrc', hname⟩)
        · exact Or.inl (List.mem_append.mpr (Or.inl hmem))
        · exact Or.inl (List.mem_append.mpr (Or.inr (by simp)))
    · rw [if_neg h]
      constructor
      · rintro (hmem | ⟨rfl, src', hsrc', hname⟩)
        · exact Or.inl hmem
        · exact Or.inr ⟨rfl, src', List.mem_cons_of_mem src hsrc', hname⟩
      · rintro (hmem | ⟨rfl, src', hsrc', hname⟩)
        · exact Or.inl hmem
        · rcases List.mem_cons.mp hsrc' with rfl | hin
          · exact absurd hname.symm h
          · exact Or.inr ⟨rfl, src', hin, hname⟩

theorem mem_bySource_fold (entries : List (String × Integration)) :
    ∀ (res : List (String × List Integration)) (s : String)
      (x : Integration),
    (x ∈ resLookup (entries.foldl addIntegration res) s ↔
      x ∈ resLookup res s
      ∨ ∃ p ∈ entries, p.2 = x ∧ ∃ src ∈ x.sources, src.name = s) := by
  induction entries with
  | nil => intro res s x; simp
  | cons p rest ih =>
    intro res s x
    rw [List.foldl_cons, ih]
    show x ∈ resLookup (p.2.sources.foldl (addUnderSource p.2) res) s
        ∨ _ ↔ _
    rw [mem_addUnderSource_fold]
    constructor
    · rintro ((hmem | ⟨rfl, src, hsrc, hname⟩) | ⟨q, hq, rfl, src, hsrc, hname⟩)
      · exact Or.inl hmem
      · exact Or.inr ⟨p, List.mem_cons_self p rest, rfl, src, hsrc, hname⟩
      · exact Or.inr ⟨q, List.mem_cons_of_mem p hq, rfl, src, hsrc, hname⟩
    · rintro (hmem | ⟨q, hq, rfl, src, hsrc, hname⟩)
      · exact Or.inl (Or.inl hmem)
      · rcases List.mem_cons.mp hq with rfl | hqin
        · exact Or.inl (Or.inr ⟨rfl, src, hsrc, hname⟩)
        · exact Or.inr ⟨q, hqin, rfl, src, hsrc, hname⟩

/-- C4: `IntegrationsBySource` merges persisted and declared
integrations keyed by name, declared winning on every collision — the
merged map looks up to the last declared integration of that name,
else the last persisted one — and the re-indexed result lists exactly
the merged records: every integration filed under a source name is a
value of the merged map (so a declared record, with its `enabled`
flag, shadows any persisted record of the same name), and every merged
record is filed under each of its source names. -/
theorem integrationsBySource_declared_wins
    (persisted : List Integration) (conf : Root) :
    (∀ n, alookup (mergedByName persisted conf.integrations) n =
      (conf.integrations.reverse.find? (fun ig => ig.name = n)).or
        (persisted.reverse.find? (fun ig => ig.name = n)))
  ∧ (∀ s x, x ∈ resLookup (IntegrationsBySource persisted conf) s →
      alookup (mergedByName persisted conf.integrations) x.name = some x)
  ∧ (∀ p ∈ mergedByName persisted conf.integrations, ∀ src ∈ p.2.sources,
      p.2 ∈ resLookup (IntegrationsBySource persisted conf) src.name) := by
  have hkeyed : keyedBy Integration.name
      (mergedByName persisted conf.integrations) :=
    keyedBy_foldl _ _ (keyedBy_foldl _ _ (fun p hp => by cases hp))
  have hnodup :
      ((mergedByName persisted conf.integrations).map Prod.fst).Nodup :=
    keysNodup_foldl _ _ (keysNodup_foldl _ _ (by simp))
  refine ⟨?_, ?_, ?_⟩
  · intro n
    unfold mergedByName
    rw [alookup_foldl_aset Integration.name, alookup_foldl_aset Integration.name]
    cases conf.integrations.reverse.find? (fun ig => ig.name = n) with
    | some ig => rfl
    | none => cases persisted.reverse.find? (fun ig => ig.name = n) <;> rfl
  · intro s x hmem
    have h := (mem_bySource_fold (mergedByName persisted conf.integrations)
      [] s x).mp hmem
    rcases h with hnil | ⟨p, hp, rfl, _, _, _⟩
    · simp [resLookup, alookup] at hnil
    · have hk : p.1 = p.2.name := hkeyed p hp
      have : (p.2.name, p.2) ∈ mergedByName persisted conf.integrations := by
        rw [← hk]
        exact hp
      exact alookup_of_mem hnodup this
  · intro p hp src hsrc
    exact (mem_bySource_fold (mergedByName persisted conf.integrations)
      [] src.name p.2).mpr
      (Or.inr ⟨p, hp, rfl, src, hsrc, rfl⟩)

def c4Src : Source :=
  { name := "s1", chainId := 1, url := "u", start := 0, stop := 0
    concurrency := 1, batchSize := 1 }

def c4PersIg : Integration :=
  { name := "x", enabled := false, sources := [c4Src]
    table := ⟨"t", [], []⟩, compiled := ⟨"", ""⟩
    block := [], event := ⟨[]⟩ }

def c4DeclIg : Integration :=
  { name := "x", enabled := true, sources := [c4Src]
    table := ⟨"t", [], []⟩, compiled := ⟨"", ""⟩
    block := [], event := ⟨[]⟩ }

def c4Root : Root :=
  { dashboard := ⟨false, false, ""⟩, pgUrl := "", sources := []
    integrations := [c4DeclIg] }

/-- Witness for C4: with a persisted and a declared integration both
named "x" whose `enabled` flags differ, the merged view holds the
declared record (`enabled = true`), and the source-indexed view files
exactly that record under "s1". -/
theorem integrationsBySource_declared_wins_witness :
    alookup (mergedByName [c4PersIg] c4Root.integrations) "x"
      = some c4DeclIg
  ∧ c4DeclIg.enabled = true ∧ c4PersIg.enabled = false
  ∧ c4DeclIg ∈ resLookup (IntegrationsBySource [c4PersIg] c4Root) "s1" := by
  refine ⟨?_, rfl, rfl, ?_⟩
  · exact ((integrationsBySource_declared_wins [c4PersIg] c4Root).1 "x").trans
      (by rfl)
  · exact (integrationsBySource_declared_wins [c4PersIg] c4Root).2.2
      ("x", c4DeclIg)
      (by rw [show mergedByName [c4PersIg] c4Root.integrations
            = [("x", c4DeclIg)] from rfl]
          exact List.mem_singleton.mpr rfl)
      c4Src (List.mem_singleton.mpr rfl)

/-! ## C7: `AllSources` -/

theorem mem_insertByChain (s : Source) (l : List Source) (x : Source) :
    x ∈ insertByChain s l ↔ x = s ∨ x ∈ l := by
  induction l with
  | nil => simp [insertByChain]
  | cons y ys ih =>
    unfold insertByChain
    split
    · simp [List.mem_cons]
    · rw [List.mem_cons, ih, List.mem_cons]
      tauto

theorem insertByChain_perm (s : Source) (l : List Source) :
    (insertByChain s l).Perm (s :: l) := by
  induction l with
  | nil => exact List.Perm.refl _
  | cons y ys ih =>
    unfold insertByChain
    split
    · exact List.Perm.refl _
    · exact List.Perm.trans (List.Perm.cons y ih) (List.Perm.swap s y ys)

theorem sortByChain_perm (l : List Source) : (sortByChain l).Perm l := by
  induction l with
  | nil => exact List.Perm.refl _
  | cons x xs ih =>
    exact List.Perm.trans (insertByChain_perm x (sortByChain xs))
      (List.Perm.cons x ih)

theorem insertByChain_sorted (s : Source) (l : List Source)
    (h : l.Pairwise (fun a b => a.chainId ≤ b.chainId)) :
    (insertByChain s l).Pairwise (fun a b => a.chainId ≤ b.chainId) := by
  induction l with
  | nil => simp [insertByChain]
  | cons y ys ih =>
    rw [List.pairwise_cons] at h
    unfold insertByChain
    split
    · rename_i hle
      rw [List.pairwise_cons]
      refine ⟨?_, List.pairwise_cons.mpr h⟩
      intro z hz
      rcases List.mem_cons.mp hz with rfl | hin
      · exact hle
      · exact le_trans hle (h.1 z hin)
    · rename_i hnle
      rw [List.pairwise_cons]
      refine ⟨?_, ih h.2⟩
      intro z hz
      rcases (mem_insertByChain s ys z).mp hz with rfl | hin
      · exact le_of_not_le hnle
      · exact h.1 z hin

theorem sortByChain_sorted (l : List Source) :
    (sortByChain l).Pairwise (fun a b => a.chainId ≤ b.chainId) := by
  induction l with
  | nil => exact List.Pairwise.nil
  | cons x xs ih => exact insertByChain_sorted x (sortByChain xs) ih

/-- C7: `AllSources` returns the merged sources sorted strictly
ascending by chain id (hence exactly one per chain id), and a source
is in the result exactly when it is what the merged map — where a
declared source overwrites a persisted source of the same chain id —
holds for its chain id; the merged map looks up to the last declared
source of that chain id, else the last persisted one. -/
theorem allSources_spec (persisted : List Source) (conf : Root) :
    (AllSources persisted conf).Pairwise
      (fun a b => a.chainId < b.chainId)
  ∧ (∀ cid, alookup (mergedByChain persisted conf.sources) cid =
      (conf.sources.reverse.find? (fun x => x.chainId = cid)).or
        (persisted.reverse.find? (fun x => x.chainId = cid)))
  ∧ (∀ s, s ∈ AllSources persisted conf ↔
      alookup (mergedByChain persisted conf.sources) s.chainId = some s) := by
  have hkeyed : keyedBy Source.chainId
      (mergedByChain persisted conf.sources) :=
    keyedBy_foldl _ _ (keyedBy_foldl _ _ (fun p hp => by cases hp))
  have hnodup :
      ((mergedByChain persisted conf.sources).map Prod.fst).Nodup :=
    keysNodup_foldl _ _ (keysNodup_foldl _ _ (by simp))
  have hperm : (AllSources persisted conf).Perm
      ((mergedByChain persisted conf.sources).map Prod.snd) :=
    sortByChain_perm _
  refine ⟨?_, ?_, ?_⟩
  · have hle : (AllSources persisted conf).Pairwise
        (fun a b => a.chainId ≤ b.chainId) := sortByChain_sorted _
    have hmapeq : (mergedByChain persisted conf.sources).map
          (Source.chainId ∘ Prod.snd)
        = (mergedByChain persisted conf.sources).map Prod.fst :=
      List.map_congr_left (fun p hp => (hkeyed p hp).symm)
    have hvnodup : (((mergedByChain persisted conf.sources).map
        Prod.snd).map Source.chainId).Nodup := by
      rw [List.map_map, hmapeq]
      exact hnodup
    have hsortnodup :
        ((AllSources persisted conf).map Source.chainId).Nodup :=
      ((hperm.map Source.chainId).nodup_iff).mpr hvnodup
    have hne : (AllSources persisted conf).Pairwise
        (fun a b => a.chainId ≠ b.chainId) :=
      List.pairwise_map.mp hsortnodup
    exact (hle.and hne).imp (fun h => lt_of_le_of_ne h.1 h.2)
  · intro cid
    unfold mergedByChain
    rw [alookup_foldl_aset Source.chainId, alookup_foldl_aset Source.chainId]
    cases conf.sources.reverse.find? (fun x => x.chainId = cid) with
    | some d => rfl
    | none =>
      cases persisted.reverse.find? (fun x => x.chainId = cid) <;> rfl
  · intro s
    constructor
    · intro hmem
      have hv : s ∈ (mergedByChain persisted conf.sources).map Prod.snd :=
        hperm.mem_iff.mp hmem
      obtain ⟨p, hp, rfl⟩ := List.mem_map.mp hv
      have hk : p.1 = p.2.chainId := hkeyed p hp
      have hpm : (p.2.chainId, p.2) ∈ mergedByChain persisted conf.sources := by
        rw [← hk]
        exact hp
      exact alookup_of_mem hnodup hpm
    · intro hl
      have hmem := mem_of_alookup hl
      have hv : s ∈ (mergedByChain persisted conf.sources).map Prod.snd :=
        List.mem_map.mpr ⟨(s.chainId, s), hmem, rfl⟩
      exact hperm.mem_iff.mpr hv

def c7Pers1 : Source :=
  { name := "p1", chainId := 1, url := "purl", start := 0, stop := 0
    concurrency := 1, batchSize := 1 }

def c7Pers5 : Source :=
  { name := "p5", chainId := 5, url := "u5", start := 0, stop := 0
    concurrency := 1, batchSize := 1 }

def c7Decl1 : Source :=
  { name := "d1", chainId := 1, url := "durl", start := 0, stop := 0
    concurrency := 1, batchSize := 1 }

def c7Root : Root :=
  { dashboard := ⟨false, false, ""⟩, pgUrl := ""
    sources := [c7Decl1], integrations := [] }

/-- Witness for C7: chain id 1 persisted and declared with different
URLs — the result carries the declared source, sorted first. -/
theorem allSources_spec_witness :
    c7Decl1 ∈ AllSources [c7Pers1, c7Pers5] c7Root
  ∧ alookup (mergedByChain [c7Pers1, c7Pers5] c7Root.sources) 1
      = some c7Decl1
  ∧ AllSources [c7Pers1, c7Pers5] c7Root = [c7Decl1, c7Pers5] := by
  have h := allSources_spec [c7Pers1, c7Pers5] c7Root
  have hl : alookup (mergedByChain [c7Pers1, c7Pers5] c7Root.sources) 1
      = some c7Decl1 :=
    (h.2.1 1).trans (by rfl)
  exact ⟨(h.2.2 c7Decl1).mpr hl, hl, by rfl⟩

end Shovel
